import Mathlib

/-!
Verification development for the `es-next` collection library.

The JavaScript sources (`src/collections.ts`, `src/globals/index.ts`) are
shallowly embedded below: JavaScript values become the inductive type
`JSVal`, plain objects become ordered association lists (`JSFields`),
arrays become `JSList`, numbers are modelled as integers, and functions
that can throw return `Except JSErr`.  Each definition mirrors the body
of the corresponding source function; deliberate modelling boundaries
(no prototype-chain methods, no NaN, reference equality on compound
values) are noted where they occur.
-/

namespace EsNext

/-- Behaviours of the (finitely many) concrete JavaScript functions that
appear as method values in the inputs we reason about. -/
inductive JSFun where
  | constBool (b : Bool)
  | constNum (n : Int)
  deriving DecidableEq, Repr

mutual
/-- A JavaScript value: number (modelled as `Int`, no NaN), string,
boolean, `null`, `undefined`, array, plain object, or function. -/
inductive JSVal where
  | vNum (n : Int)
  | vStr (s : String)
  | vBool (b : Bool)
  | vNull
  | vUndefined
  | arr (xs : JSList)
  | obj (fs : JSFields)
  | fn (f : JSFun)
  deriving DecidableEq, Repr
/-- A list of JavaScript values (the contents of an array). -/
inductive JSList where
  | nil
  | cons (x : JSVal) (xs : JSList)
  deriving DecidableEq, Repr
/-- The own enumerable string-keyed properties of a plain object, in
insertion order; keys are unique. -/
inductive JSFields where
  | nil
  | cons (k : String) (v : JSVal) (fs : JSFields)
  deriving DecidableEq, Repr
end

/-- Errors thrown by the embedded code. -/
inductive JSErr where
  | typeError (msg : String)
  | notImplementedError
  | valueError
  deriving DecidableEq, Repr

namespace JSList

/-- Append two arrays. -/
def append : JSList → JSList → JSList
  | .nil, ys => ys
  | .cons x xs, ys => .cons x (append xs ys)

/-- Number of elements. -/
def length : JSList → Nat
  | .nil => 0
  | .cons _ xs => length xs + 1

/-- Element at an index, or `none`. -/
def getIdx : JSList → Nat → Option JSVal
  | .nil, _ => none
  | .cons x _, 0 => some x
  | .cons _ xs, n + 1 => getIdx xs n

/-- Every element satisfies the boolean predicate. -/
def all (p : JSVal → Bool) : JSList → Bool
  | .nil => true
  | .cons x xs => p x && all p xs

/-- Conversion to a Lean list. -/
def toList : JSList → List JSVal
  | .nil => []
  | .cons x xs => x :: toList xs

/-- Conversion from a Lean list. -/
def ofList : List JSVal → JSList
  | [] => .nil
  | x :: xs => .cons x (ofList xs)

end JSList

namespace JSFields

/-- The keys, in storage (insertion) order. -/
def keysF : JSFields → List String
  | .nil => []
  | .cons k _ fs => k :: keysF fs

/-- The values, in storage order. -/
def valsF : JSFields → List JSVal
  | .nil => []
  | .cons _ v fs => v :: valsF fs

/-- Look a key up among the own properties. -/
def lookupF : JSFields → String → Option JSVal
  | .nil, _ => none
  | .cons k v fs, k' => if k = k' then some v else lookupF fs k'

/-- The pairs, in storage order. -/
def toPairs : JSFields → List (String × JSVal)
  | .nil => []
  | .cons k v fs => (k, v) :: toPairs fs

/-- Every stored value satisfies the boolean predicate. -/
def allVals (p : JSVal → Bool) : JSFields → Bool
  | .nil => true
  | .cons _ v fs => p v && allVals p fs

end JSFields

/-- JavaScript property assignment `o[k] = v` on a plain object: an
existing key keeps its position and gets the new value, a new key is
appended. -/
def setKey : JSFields → String → JSVal → JSFields
  | .nil, k, v => .cons k v .nil
  | .cons k' v' fs, k, v =>
    if k' = k then .cons k' v fs else .cons k' v' (setKey fs k v)

/-- Boolean membership in a Lean list, by decidable equality. -/
def memB {α : Type} [DecidableEq α] (x : α) : List α → Bool
  | [] => false
  | y :: ys => if x = y then true else memB x ys

/-- First occurrences of a list's elements, those already in `seen`
dropped. -/
def dedupAux {α : Type} [DecidableEq α] (seen : List α) : List α → List α
  | [] => []
  | x :: xs => if memB x seen then dedupAux seen xs else x :: dedupAux (x :: seen) xs

mutual
/-- JavaScript `String(v)` / ToPropertyKey on the modelled values:
numbers print in decimal, arrays join their stringified elements with
commas (`null`/`undefined` elements print as empty), objects print as
`[object Object]`. -/
def toPropKey : JSVal → String
  | .vNum n => toString n
  | .vStr s => s
  | .vBool b => if b then "true" else "false"
  | .vNull => "null"
  | .vUndefined => "undefined"
  | .arr xs => joinKeys xs
  | .obj _ => "[object Object]"
  | .fn _ => "function"
/-- Array.prototype.toString: comma-joined element strings. -/
def joinKeys : JSList → String
  | .nil => ""
  | .cons x .nil => (match x with | .vNull => "" | .vUndefined => "" | v => toPropKey v)
  | .cons x xs =>
    (match x with | .vNull => "" | .vUndefined => "" | v => toPropKey v) ++ "," ++ joinKeys xs
end

/-- `x == null` (loose): true exactly for `null` and `undefined`. -/
def isNullish : JSVal → Bool
  | .vNull => true
  | .vUndefined => true
  | _ => false

/-- `isFunc` from globals: `x?.constructor === Function`. -/
def isFunc : JSVal → Bool
  | .fn _ => true
  | _ => false

/-- `isString` from globals (`type(x) === 'string'`). -/
def isString : JSVal → Bool
  | .vStr _ => true
  | _ => false

/-- JavaScript truthiness of a modelled value. -/
def truthyVal : JSVal → Bool
  | .vNum n => n ≠ 0
  | .vStr s => s ≠ ""
  | .vBool b => b
  | .vNull => false
  | .vUndefined => false
  | _ => true

/-- A canonical array-index string (`"0"`, `"1"`, …, below `2^32 - 1`)
parsed back to its number, otherwise `none`. -/
def toNatKey (s : String) : Option Nat :=
  if s.toList ≠ [] ∧ s.toList.all Char.isDigit then
    let n := s.toList.foldl (fun a c => a * 10 + (c.toNat - 48)) 0
    if toString n = s ∧ n < 2 ^ 32 - 1 then some n else none
  else none

/-- Single property read `v[k]` with a string key: own properties of
objects, index and `length` of arrays and strings.  Methods inherited
from prototypes are outside the model and read as `undefined`; no
modelled execution path depends on them. -/
def getProp (v : JSVal) (k : String) : JSVal :=
  match v with
  | .obj fs => (fs.lookupF k).getD .vUndefined
  | .arr xs =>
    if k = "length" then .vNum xs.length
    else match toNatKey k with
      | some i => (xs.getIdx i).getD .vUndefined
      | none => .vUndefined
  | .vStr s =>
    if k = "length" then .vNum s.length
    else match toNatKey k with
      | some i => match s.toList.get? i with
        | some c => .vStr (String.mk [c])
        | none => .vUndefined
      | none => .vUndefined
  | _ => .vUndefined

/-- Split a list of characters at every `'.'`. -/
def splitDotAux : List Char → List Char → List String
  | [], acc => [String.mk acc.reverse]
  | '.' :: t, acc => String.mk acc.reverse :: splitDotAux t []
  | c :: t, acc => splitDotAux t (c :: acc)

/-- JavaScript `s.split('.')`. -/
def splitDot (s : String) : List String := splitDotAux s.toList []

/-- The chain `result = result[k]` of `get`, inside its try/catch:
reading a property off `null`/`undefined` throws, which `get` turns
into the default (`none` here). -/
def walkPath : JSVal → JSList → Option JSVal
  | r, .nil => some r
  | r, .cons k ks =>
    if isNullish r then none else walkPath (getProp r (toPropKey k)) ks

/-- `get(key, obj, value)` from globals: `null` receiver gives the
default; an array key walks its elements as a path, a string key is
split on `.`, anything else is a one-step path; a final `undefined`
gives the default. -/
def get (key : JSVal) (o : JSVal) (dflt : JSVal) : JSVal :=
  if isNullish o then dflt
  else
    let paths : JSList :=
      match key with
      | .vStr s => JSList.ofList ((splitDot s).map JSVal.vStr)
      | .arr xs => xs
      | k => .cons k .nil
    match walkPath o paths with
    | none => dflt
    | some r => match r with
      | .vUndefined => dflt
      | r => r

/-- Application of a modelled function value; applying a non-function
would throw in JavaScript and is outside the paths we evaluate. -/
def applyVal : JSVal → JSList → JSVal
  | .fn (.constBool b), _ => .vBool b
  | .fn (.constNum n), _ => .vNum n
  | _, _ => .vUndefined

/-- `call(obj, key, ...args)` from globals: if `get(key, obj)` is a
function, invoke `obj[key](...args)`, else return `undefined`. -/
def call (o : JSVal) (key : JSVal) (args : JSList) : JSVal :=
  if isFunc (get key o .vUndefined) then applyVal (getProp o (toPropKey key)) args
  else .vUndefined

/-- Modelled from the spec: the equality oracle `eq(a, b) -> bool` of
the external operators module (absent from `src/`), "used for equality
in `matches`/`index`".  Primitives compare by value; compound values
compare by reference, which distinct model terms approximate as
`false`. -/
def eqOracle : JSVal → JSVal → Bool
  | .vNum m, .vNum n => m = n
  | .vStr s, .vStr t => s = t
  | .vBool x, .vBool y => x = y
  | .vNull, .vNull => true
  | .vUndefined, .vUndefined => true
  | _, _ => false

/-- Decimal integer strings to numbers; `""` converts to `0` as in
JavaScript ToNumber (fractional, exponent and whitespace forms are
outside the model). -/
def strToNum (s : String) : Option Int :=
  match s.toList with
  | [] => some 0
  | '-' :: ds =>
    if ds ≠ [] ∧ ds.all Char.isDigit then
      some (-(ds.foldl (fun a c => a * 10 + (c.toNat - 48) : Nat → Char → Nat) 0 : Nat))
    else none
  | ds =>
    if ds.all Char.isDigit then
      some ((ds.foldl (fun a c => a * 10 + (c.toNat - 48) : Nat → Char → Nat) 0 : Nat))
    else none

/-- JavaScript ToNumber on the modelled values: `none` plays NaN, so
any comparison against it is false. -/
def toNumOpt : JSVal → Option Int
  | .vNum n => some n
  | .vBool b => some (if b then 1 else 0)
  | .vNull => some 0
  | .vUndefined => none
  | v => strToNum (toPropKey v)

/-- The comparison `v >= 0` with JavaScript numeric coercion. -/
def ge0 (v : JSVal) : Bool :=
  match toNumOpt v with
  | some n => 0 ≤ n
  | none => false

/-- Does `hay` start with `pat`? -/
def startsWithChars : List Char → List Char → Bool
  | _, [] => true
  | [], _ :: _ => false
  | c :: cs, d :: ds => c = d && startsWithChars cs ds

/-- First position (counted from `pos`) where `pat` occurs in `hay`,
or `-1`. -/
def findSub (pat : List Char) : List Char → Nat → Int
  | [], pos => if startsWithChars [] pat then pos else -1
  | c :: t, pos => if startsWithChars (c :: t) pat then pos else findSub pat t (pos + 1)

/-- `String.prototype.indexOf(pat, from)` for `from` within bounds. -/
def strIndexOf (s pat : String) (start : Nat) : Int :=
  findSub pat.toList (s.toList.drop start) start

/-- `index(obj, x, start = 0)` from collections: first the two
duck-typing attempts `call('indexOf', obj, x)` and
`call('index', obj, x)` exactly as written in the source (the method
name is passed in the `obj` position of `call`), then `obj.length`
(throws on a nullish operand), negative-`start` normalisation, native
search for strings, and the linear scan under the equality oracle.  A
`length` that is not a number makes every loop guard false (NaN), so
the scan returns `-1`. -/
def index (o x : JSVal) (start : Int) : Except JSErr JSVal :=
  let op := call (.vStr "indexOf") o (.cons x .nil)
  if ¬ isNullish op then .ok op
  else
    let op2 := call (.vStr "index") o (.cons x .nil)
    if ¬ isNullish op2 then .ok op2
    else
      if isNullish o then .error (.typeError "Cannot read properties of null or undefined")
      else
        match o with
        | .vStr s =>
          let len : Int := s.length
          let st := if start < 0 then max (start + len) 0 else start
          if len ≤ st then .ok (.vNum (-1))
          else .ok (.vNum (strIndexOf s (toPropKey x) st.toNat))
        | o =>
          match getProp o "length" with
          | .vNum len =>
            let st := if start < 0 then max (start + len) 0 else start
            .ok (scanFrom o x (len - st).toNat st)
          | _ => .ok (.vNum (-1))
where
  /-- The loop `for (; start < length; start++) if (eq(x, obj[start])) return start`,
  driven by the remaining iteration count. -/
  scanFrom (o x : JSVal) : Nat → Int → JSVal
    | 0, _ => .vNum (-1)
    | n + 1, pos =>
      if eqOracle x (getProp o (toPropKey (.vNum pos))) then .vNum pos
      else scanFrom o x n (pos + 1)

/-- `contains(arr, y)` from collections: the duck-typing attempt
`call('contains', arr, y)` exactly as written in the source, then the
generic fallback `index(arr, y) >= 0`. -/
def contains (a y : JSVal) : Except JSErr JSVal :=
  let op := call (.vStr "contains") a (.cons y .nil)
  if ¬ isNullish op then .ok op
  else do
    let r ← index a y 0
    pure (.vBool (ge0 r))

/- Collection abstract-base defaults, one definition per method body
of `class Collection` in the source. -/
namespace Collection

/-- `next() {}` — no-op, returns `undefined`. -/
def next : Except JSErr JSVal := .ok .vUndefined

/-- `add(item) {}` — no-op. -/
def add (_item : JSVal) : Except JSErr JSVal := .ok .vUndefined

/-- `contains(item) { return false }`. -/
def contains (_item : JSVal) : Except JSErr JSVal := .ok (.vBool false)

/-- `size() { throw new NotImplementedError() }`. -/
def size : Except JSErr JSVal := .error .notImplementedError

/-- `remove(x) {}` — the body is empty; its doc comment promises
`@raises ValueError when x is not found`. -/
def remove (_x : JSVal) : Except JSErr JSVal := .ok .vUndefined

/-- `pop(i) {}` — no-op. -/
def pop (_i : JSVal) : Except JSErr JSVal := .ok .vUndefined

/-- `clear() {}` — no-op. -/
def clear : Except JSErr JSVal := .ok .vUndefined

end Collection

/-- The error thrown by every mutating `FrozenSet` entry point; §7 of
the spec names this kind "FrozenMutationError". -/
def frozenMutationError : JSErr := JSErr.typeError "FrozenSet cannot be modified."

/-- `FrozenSet<T> extends Set<T>`: the backing native set, kept as its
insertion-ordered list of distinct elements.  `DecidableEq` plays the
SameValueZero equality of the host set. -/
structure FrozenSet (α : Type) [DecidableEq α] where
  elems : List α
  deriving Repr

namespace FrozenSet

variable {α : Type} [DecidableEq α]

/-- The constructor: `super(iterable)` copies the iterable into the
backing set (first occurrences, insertion order), then freezes. -/
def new (iterable : List α) : FrozenSet α := ⟨dedupAux [] iterable⟩

/-- Native `Set.prototype.has`. -/
def has (s : FrozenSet α) (x : α) : Bool := memB x s.elems

/-- `add() { throw TypeError('FrozenSet cannot be modified.') }`. -/
def add (_s : FrozenSet α) (_x : α) : Except JSErr (FrozenSet α) :=
  .error frozenMutationError

/-- `delete() { throw TypeError('FrozenSet cannot be modified.') }`. -/
def del (_s : FrozenSet α) (_x : α) : Except JSErr (FrozenSet α) :=
  .error frozenMutationError

/-- `clear() { throw TypeError('FrozenSet cannot be modified.') }`. -/
def clear (_s : FrozenSet α) : Except JSErr (FrozenSet α) :=
  .error frozenMutationError

end FrozenSet

/-- Repeated JavaScript property assignments, left to right. -/
def storeAll : JSFields → List (String × JSVal) → JSFields
  | acc, [] => acc
  | acc, (k, v) :: ps => storeAll (setKey acc k v) ps

/-- The `paths` selector of `pick`: an explicit key list or a
predicate iteratee `(value, key)`. -/
inductive PickSel where
  | byKeys (ks : List String)
  | byPred (p : JSVal → String → JSVal)

/-- The keys enumerated by `for (const key in obj)`: the own
enumerable keys of a plain object; other operands enumerate nothing in
the model (no claim exercises `for..in` over them). -/
def enumKeys : JSVal → List String
  | .obj fs => fs.keysF
  | _ => []

/-- The predicate branch of `pick`. -/
def pickPredAux (o : JSVal) (p : JSVal → String → JSVal) : List String → JSFields → JSFields
  | [], acc => acc
  | k :: ks, acc =>
    let value := getProp o k
    if truthyVal (p value k) then pickPredAux o p ks (setKey acc k value)
    else pickPredAux o p ks acc

/-- `pick(obj, paths)`: a nullish `obj` gives `{}`; a key list copies
`result[key] = obj[key]` for each listed key; a predicate copies the
own keys whose `(value, key)` test is truthy. -/
def pick (o : JSVal) (sel : PickSel) : JSVal :=
  if isNullish o then .obj .nil
  else match sel with
    | .byKeys ks => .obj (storeAll .nil (ks.map (fun k => (k, getProp o k))))
    | .byPred p => .obj (pickPredAux o p (enumKeys o) .nil)

/-- The `fn` argument of `uniq`: a property name or a key function. -/
inductive UniqSel where
  | propName (s : String)
  | func (f : JSVal → JSVal)

/-- The derived key of an element: `fn(x)` for a function, `x[fn]` for
a property name. -/
def derive : UniqSel → JSVal → JSVal
  | .func f, x => f x
  | .propName s, x => getProp x s

/-- Stable insertion of an index-keyed pair into an ascending list. -/
def insSortedNat (p : Nat × JSVal) : List (Nat × JSVal) → List (Nat × JSVal)
  | [] => [p]
  | q :: qs => if p.1 ≤ q.1 then p :: q :: qs else q :: insSortedNat p qs

/-- Ascending sort of index-keyed pairs. -/
def sortNats : List (Nat × JSVal) → List (Nat × JSVal)
  | [] => []
  | p :: ps => insSortedNat p (sortNats ps)

/-- `Object.values`: array-index-like keys first in ascending numeric
order, then the remaining keys in insertion order. -/
def jsValues (fs : JSFields) : JSList :=
  let ps := fs.toPairs
  let ints := ps.filterMap (fun kv => (toNatKey kv.1).map (fun i => (i, kv.2)))
  let strs := ps.filter (fun kv => (toNatKey kv.1).isNone)
  JSList.ofList ((sortNats ints).map Prod.snd ++ strs.map Prod.snd)

/-- `uniq(arr, fn = id)`: for each element `x` in order, store the
derived key at mapping key `String(x)` (last write wins), then return
the mapping's values. -/
def uniq (l : JSList) (fn : UniqSel) : JSList :=
  jsValues (storeAll .nil (l.toList.map (fun x => (toPropKey x, derive fn x))))

/-- Modelled from the spec: `comp(a, b) -> -1|0|1`, the external
ordering oracle of the operators module (absent from `src/`); numbers
and strings compare in their natural orders. -/
def comp : JSVal → JSVal → Int
  | .vNum m, .vNum n => if m < n then -1 else if n < m then 1 else 0
  | .vStr s, .vStr t => if s < t then -1 else if t < s then 1 else 0
  | _, _ => 0

/-- Modelled from the spec: `id(x) -> x`, the identity key function of
the operators module (absent from `src/`). -/
def opId : JSVal → JSVal := fun x => x

/-- Stable insertion by the three-way comparison. -/
def insComp (x : JSVal) : JSList → JSList
  | .nil => .cons x .nil
  | .cons y ys => if comp y x ≤ 0 then .cons y (insComp x ys) else .cons x (.cons y ys)

/-- `lst.sort(comp)`: the ascending, stable reordering produced by a
consistent comparator. -/
def sortComp : JSList → JSList
  | .nil => .nil
  | .cons x xs => insComp x (sortComp xs)

/-- `sortedUniq(arr, fn)`: `uniq`, then sort by `comp`. -/
def sortedUniq (l : JSList) (fn : UniqSel) : JSList := sortComp (uniq l fn)

/-- The derived key of the last element of `l` whose string coercion
is `k`, if any. -/
def lastDerived (fn : UniqSel) : JSList → String → Option JSVal
  | .nil, _ => none
  | .cons x xs, k =>
    match lastDerived fn xs k with
    | some v => some v
    | none => if toPropKey x = k then some (derive fn x) else none

/-- The string coercions of an array's elements, in order. -/
def propKeys (l : JSList) : List String := l.toList.map toPropKey

/-- An object with the given keys, each mapped through `f`. -/
def buildFields : List String → (String → JSVal) → JSFields
  | [], _ => .nil
  | k :: ks, f => .cons k (f k) (buildFields ks f)

/-- The mapping described by the claim for `uniq`, stated
extensionally: its keys are the distinct element coercions in first
occurrence order, and each key holds the derived key of the last
element that coerces to it; the result is that mapping's values. -/
def uniqSpec (l : JSList) (fn : UniqSel) : JSList :=
  jsValues (buildFields (dedupAux [] (propKeys l))
    (fun k => (lastDerived fn l k).getD .vUndefined))

/-- The `depth` argument of `flatten`/`flattenArray`: a number or a
boolean. -/
inductive Depth where
  | num (n : Int)
  | bool (b : Bool)
  deriving DecidableEq, Repr

/-- Truthiness of a depth value (`!depth` in the source). -/
def dTruthy : Depth → Bool
  | .num n => n ≠ 0
  | .bool b => b

/-- `typeof depth === 'number' ? depth - 1 : depth`. -/
def decDepth : Depth → Depth
  | .num n => .num (n - 1)
  | .bool b => .bool b

mutual
/-- Structural size of a value; only array nesting counts, everything
else is an atom. -/
def S : JSVal → Nat
  | .arr xs => SL xs + 1
  | _ => 1
/-- Total size of an array's elements. -/
def SL : JSList → Nat
  | .nil => 0
  | .cons x xs => S x + SL xs
end

/-- The loop of `flattenArray(arr, depth)`, as a recursion over the
portion of the (in-place mutated) array at and after the loop index
`i`.  One iteration at a nested-array element computes
`value = flatten(value, depth - 1)`, splices it in place of the
element, and then runs `i++`: the position now holding the first
spliced-in element (or, after splicing an empty array, the element
shifted into position `i`) is skipped, and scanning resumes after it.
The fuel argument only forces termination; `SL todo + 1` is always
enough (`flattenLoop_fuel_eq` below). -/
def flattenLoop : Nat → JSList → Depth → JSList
  | 0, todo, _ => todo
  | _ + 1, .nil, _ => .nil
  | fuel + 1, .cons x rest, d =>
    match x with
    | .arr xs =>
      let d' := decDepth d
      let v := if dTruthy d' then flattenLoop fuel xs d' else xs
      (match v with
       | .nil =>
         (match rest with
          | .nil => .nil
          | .cons y rest' => .cons y (flattenLoop fuel rest' d))
       | .cons v0 vrest => .cons v0 (flattenLoop fuel (vrest.append rest) d))
    | x => .cons x (flattenLoop fuel rest d)

/-- `flattenArray(arr, depth = 1)`: falsy depth is a no-op, otherwise
the splice-and-advance loop. -/
def flattenArray (l : JSList) (d : Depth) : JSList :=
  if ¬ dTruthy d then l else flattenLoop (SL l + 1) l d

mutual
/-- `flattenObj(o, prefix = '', result = {}, keepNull = false)`:
scalar leaves (and nullish leaves when `keepNull`) are written at
`result[prefix]`; arrays recurse with `prefix + '[i]'`, objects with a
dot-joined key; anything else contributes nothing. -/
def flattenObj : JSVal → String → JSFields → Bool → JSFields
  | .vStr s, pre, result, _ => setKey result pre (.vStr s)
  | .vNum n, pre, result, _ => setKey result pre (.vNum n)
  | .vBool b, pre, result, _ => setKey result pre (.vBool b)
  | .vNull, pre, result, keepNull =>
    if keepNull then setKey result pre .vNull else result
  | .vUndefined, pre, result, keepNull =>
    if keepNull then setKey result pre .vUndefined else result
  | .arr xs, pre, result, keepNull => flattenObjArr xs 0 pre result keepNull
  | .obj fs, pre, result, keepNull => flattenObjFields fs pre result keepNull
  | .fn _, _, result, _ => result
/-- The `for (const i in o)` walk over an array's elements. -/
def flattenObjArr : JSList → Nat → String → JSFields → Bool → JSFields
  | .nil, _, _, result, _ => result
  | .cons x xs, i, pre, result, keepNull =>
    flattenObjArr xs (i + 1) pre
      (flattenObj x (pre ++ "[" ++ toString i ++ "]") result keepNull) keepNull
/-- The `for (const i in o)` walk over an object's own keys. -/
def flattenObjFields : JSFields → String → JSFields → Bool → JSFields
  | .nil, _, result, _ => result
  | .cons k v fs, pre, result, keepNull =>
    flattenObjFields fs pre
      (flattenObj v (if pre = "" then k else pre ++ "." ++ k) result keepNull) keepNull
end

/-- `flatten(arr, depth = 1)`: falsy depth is a no-op; arrays go to
`flattenArray` with the same depth; objects go to `flattenObj` with
all-default remaining arguments (the depth is dropped); anything else
is returned unchanged. -/
def flatten (v : JSVal) (d : Depth) : JSVal :=
  if ¬ dTruthy d then v
  else match v with
    | .arr xs => .arr (flattenArray xs d)
    | .obj fs => .obj (flattenObj (.obj fs) "" .nil false)
    | v => v

/-- The array flattening described by the claim for `flattenArray`:
each nested-array element is replaced in place by its contents
flattened within the remaining budget `d - 1`, newly spliced-in
nested arrays being flattened exactly within that remaining budget,
never skipped and never re-flattened at the original budget. -/
def specFlat : Nat → JSList → JSList
  | 0, l => l
  | _ + 1, .nil => .nil
  | d + 1, .cons x rest =>
    (match x with
     | .arr xs => (specFlat d xs).append (specFlat (d + 1) rest)
     | x => .cons x (specFlat (d + 1) rest))

/-- One mutating call on a `FrozenSet`. -/
inductive MutOp (α : Type) where
  | add (x : α)
  | del (x : α)
  | clear

/-- Dispatch one mutating call. -/
def runOp {α : Type} [DecidableEq α] (s : FrozenSet α) : MutOp α → Except JSErr (FrozenSet α)
  | .add x => s.add x
  | .del x => s.del x
  | .clear => s.clear

/-- A caller that performs a sequence of mutating calls, catching every
failure and retrying with whatever state it still holds. -/
def runCaught {α : Type} [DecidableEq α] : FrozenSet α → List (MutOp α) → FrozenSet α
  | s, [] => s
  | s, op :: ops =>
    runCaught (match runOp s op with | .ok st' => st' | .error _ => s) ops

/-- The last value stored at a key by a pair sequence. -/
def lastPair : List (String × JSVal) → String → Option JSVal
  | [], _ => none
  | (k0, v0) :: ps, k =>
    match lastPair ps k with
    | some v => some v
    | none => if k0 = k then some v0 else none

/-! Concrete operands used by the claims about `contains`/`index`. -/

/-- An operand exposing a callable `contains` method that always
returns `true`, and an empty generic extent (`length: 0`). -/
def containsCapable : JSVal :=
  .obj (.cons "length" (.vNum 0) (.cons "contains" (.fn (.constBool true)) .nil))

/-- An operand exposing a callable `indexOf` method that always
returns `42`, plus one scannable element `'a'` at index 0. -/
def indexOfCapable : JSVal :=
  .obj (.cons "0" (.vStr "a")
    (.cons "length" (.vNum 1) (.cons "indexOf" (.fn (.constNum 42)) .nil)))

/-- The element is not an array. -/
def notArray : JSVal → Bool
  | .arr _ => false
  | _ => true

/-- An element after which one depth-1 pass leaves no array behind: a
non-array, or a nonempty array all of whose elements are non-arrays. -/
def elemOk1 : JSVal → Bool
  | .arr .nil => false
  | .arr (.cons x xs) => notArray x && xs.all notArray
  | _ => true

/-! Concrete arrays exercising the `flattenArray` loop. -/

/-- `[[0, [1]]]`. -/
def exOverSplice : JSList :=
  .cons (.arr (.cons (.vNum 0) (.cons (.arr (.cons (.vNum 1) .nil)) .nil))) .nil

/-- `[[], [1]]`. -/
def exEmptySkip : JSList :=
  .cons (.arr .nil) (.cons (.arr (.cons (.vNum 1) .nil)) .nil)

/-- `[[[5]]]`. -/
def exDeepNest : JSList :=
  .cons (.arr (.cons (.arr (.cons (.vNum 5) .nil)) .nil)) .nil

/-- A scalar primitive: string, number or boolean. -/
def isScalarB : JSVal → Bool
  | .vStr _ => true
  | .vNum _ => true
  | .vBool _ => true
  | _ => false

/-- A value `flattenObj` is allowed to store: a scalar, or — only when
`keepNull` is set — a nullish value. -/
def goodLeaf (kn : Bool) (v : JSVal) : Bool := isScalarB v || (kn && isNullish v)

/-- No key occurs twice. -/
def nodupB : List String → Bool
  | [] => true
  | k :: ks => !memB k ks && nodupB ks

/-- Ascending chain under the three-way comparison oracle. -/
def chainSortedComp : JSList → Bool
  | .nil => true
  | .cons _ .nil => true
  | .cons x (.cons y ys) => (comp x y ≤ 0) && chainSortedComp (.cons y ys)

/-- `[1, 1, 2, 3, 3]`. -/
def uniqEx : JSList :=
  .cons (.vNum 1) (.cons (.vNum 1) (.cons (.vNum 2) (.cons (.vNum 3) (.cons (.vNum 3) .nil))))

/-! Supporting lemmas about the embedded primitives. -/

theorem memB_eq_true_iff {α : Type} [DecidableEq α] (x : α) :
    ∀ l : List α, memB x l = true ↔ x ∈ l := by
  intro l
  induction l with
  | nil => simp [memB]
  | cons y ys ih =>
    by_cases hxy : x = y <;> simp [memB, hxy, ih]

theorem memB_dedupAux {α : Type} [DecidableEq α] (x : α) :
    ∀ (l : List α) (seen : List α),
      memB x (dedupAux seen l) = (memB x l && !memB x seen) := by
  intro l
  induction l with
  | nil => intro seen; simp [dedupAux, memB]
  | cons y ys ih =>
    intro seen
    by_cases hy : memB y seen
    · by_cases hxy : x = y
      · subst hxy; simp [dedupAux, hy, memB, ih, hy]
      · simp [dedupAux, hy, memB, hxy, ih]
    · by_cases hxy : x = y
      · subst hxy; simp [dedupAux, hy, memB, ih]
      · simp [dedupAux, hy, memB, hxy, ih]

theorem memB_append {α : Type} [DecidableEq α] (x : α) :
    ∀ l1 l2 : List α, memB x (l1 ++ l2) = (memB x l1 || memB x l2) := by
  intro l1 l2
  induction l1 with
  | nil => simp [memB]
  | cons a as ih =>
    by_cases hx : x = a <;> simp [memB, hx, ih]

/-- `dedupAux` only consults the membership of `seen`. -/
theorem dedupAux_congr {α : Type} [DecidableEq α] :
    ∀ (l s1 s2 : List α), (∀ x, memB x s1 = memB x s2) →
      dedupAux s1 l = dedupAux s2 l := by
  intro l
  induction l with
  | nil => intro s1 s2 _; simp [dedupAux]
  | cons a as ihl =>
    intro s1 s2 hs
    have hmem : ∀ x, memB x (a :: s1) = memB x (a :: s2) := by
      intro x; by_cases hx : x = a <;> simp [memB, hx, hs]
    simp [dedupAux, hs a, ihl s1 s2 hs, ihl (a :: s1) (a :: s2) hmem]

/-- Keys of the result of a property assignment. -/
theorem keysF_setKey :
    ∀ (fs : JSFields) (k : String) (v : JSVal),
      (setKey fs k v).keysF =
        if memB k fs.keysF then fs.keysF else fs.keysF ++ [k]
  | .nil, k, v => by simp [setKey, JSFields.keysF, memB]
  | .cons k' v' fs, k, v => by
    by_cases h : k' = k
    · subst h; simp [setKey, JSFields.keysF, memB]
    · have h' : ¬ k = k' := fun e => h e.symm
      simp [setKey, JSFields.keysF, memB, h, h', keysF_setKey fs k v]
      by_cases hm : memB k fs.keysF <;> simp [hm]

/-- Lookup after a property assignment. -/
theorem lookupF_setKey :
    ∀ (fs : JSFields) (k : String) (v : JSVal) (k' : String),
      (setKey fs k v).lookupF k' =
        if k = k' then some v else fs.lookupF k'
  | .nil, k, v, k' => by simp [setKey, JSFields.lookupF]
  | .cons k0 v0 fs, k, v, k' => by
    by_cases h : k0 = k
    · subst h
      by_cases h' : k0 = k' <;> simp [setKey, JSFields.lookupF, h']
    · by_cases h' : k0 = k'
      · subst h'
        have hne : ¬ k = k0 := fun e => h e.symm
        simp [setKey, JSFields.lookupF, h, hne]
      · simp [setKey, JSFields.lookupF, h, h', lookupF_setKey fs k v k']

/-- A property assignment of a good value keeps all stored values good. -/
theorem allVals_setKey (p : JSVal → Bool) :
    ∀ (fs : JSFields) (k : String) (v : JSVal),
      fs.allVals p = true → p v = true →
      (setKey fs k v).allVals p = true
  | .nil, k, v, _, hv => by simp [setKey, JSFields.allVals, hv]
  | .cons k0 v0 fs, k, v, hall, hv => by
    simp [JSFields.allVals] at hall
    by_cases h : k0 = k
    · simp [setKey, h, JSFields.allVals, hall.2, hv]
    · simp [setKey, h, JSFields.allVals, hall.1,
        allVals_setKey p fs k v hall.2 hv]

theorem lookupF_storeAll :
    ∀ (ps : List (String × JSVal)) (acc : JSFields) (k : String),
      (storeAll acc ps).lookupF k =
        match lastPair ps k with
        | some v => some v
        | none => acc.lookupF k := by
  intro ps
  induction ps with
  | nil => intro acc k; simp [storeAll, lastPair]
  | cons p ps ih =>
    intro acc k
    obtain ⟨k0, v0⟩ := p
    rw [storeAll, ih, lastPair]
    cases h : lastPair ps k with
    | some v => simp
    | none =>
      by_cases h0 : k0 = k <;> simp [h0, lookupF_setKey]

theorem keysF_storeAll :
    ∀ (ps : List (String × JSVal)) (acc : JSFields),
      (storeAll acc ps).keysF =
        acc.keysF ++ dedupAux acc.keysF (ps.map Prod.fst) := by
  intro ps
  induction ps with
  | nil => intro acc; simp [storeAll, dedupAux]
  | cons p ps ih =>
    intro acc
    obtain ⟨k0, v0⟩ := p
    rw [storeAll, ih, List.map_cons]
    by_cases h : memB k0 acc.keysF
    · simp only [keysF_setKey, h, if_pos, dedupAux]
    · simp only [keysF_setKey, h, if_neg, Bool.false_eq_true, not_false_iff, dedupAux]
      have hseen : ∀ x : String, memB x (acc.keysF ++ [k0]) = memB x (k0 :: acc.keysF) := by
        intro x
        rw [memB_append]
        by_cases hk : x = k0 <;> simp [memB, hk]
      rw [dedupAux_congr (ps.map Prod.fst) (acc.keysF ++ [k0]) (k0 :: acc.keysF) hseen]
      simp [memB, dedupAux, List.append_assoc]

/-- `lastPair` over pairs all built from one value function. -/
theorem lastPair_map (f : String → JSVal) :
    ∀ (ks : List String) (k : String),
      lastPair (ks.map (fun k0 => (k0, f k0))) k =
        if memB k ks then some (f k) else none := by
  intro ks
  induction ks with
  | nil => intro k; simp [lastPair, memB]
  | cons k0 ks ih =>
    intro k
    rw [List.map_cons, lastPair, ih]
    by_cases hk : k = k0
    · subst hk
      by_cases hm : memB k ks <;> simp [memB, hm]
    · have hk' : ¬ k0 = k := fun e => hk e.symm
      by_cases hm : memB k ks <;> simp [memB, hm, hk, hk']

/-- C1: the claim says an operand with a callable `contains` (resp.
`indexOf`) method has that method's result returned verbatim with the
generic fallback never run.  On the code the duck-typed delegation
never fires — `collections.ts` passes the method name in the `obj`
position of `call(obj, key, ...args)` — so the generic fallback runs
and its answer, not the method's, is returned: `contains` yields
`false` although the operand's method yields `true`, and `index`
yields the scan position `0` although the operand's method yields
`42`. -/
theorem contains_index_fallback_always_runs :
    (isFunc (getProp containsCapable "contains") = true
      ∧ applyVal (getProp containsCapable "contains") (.cons (.vNum 5) .nil) = .vBool true
      ∧ contains containsCapable (.vNum 5) = .ok (.vBool false))
    ∧ (isFunc (getProp indexOfCapable "indexOf") = true
      ∧ applyVal (getProp indexOfCapable "indexOf") (.cons (.vStr "a") .nil) = .vNum 42
      ∧ index indexOfCapable (.vStr "a") 0 = .ok (.vNum 0)) :=
  ⟨⟨rfl, rfl, rfl⟩, ⟨rfl, rfl, rfl⟩⟩

/-- C2: constructing a `FrozenSet` from a finite iterable succeeds and
its membership is exactly membership in the iterable; in particular
`new FrozenSet([1,2,3])` holds exactly the elements 1, 2, 3. -/
theorem frozenSet_construct_membership :
    (∀ (α : Type) [DecidableEq α] (it : List α) (x : α),
      (FrozenSet.new it).has x = memB x it)
    ∧ ((FrozenSet.new [1, 2, 3] : FrozenSet Int).elems = [1, 2, 3]
      ∧ ∀ x : Int, (FrozenSet.new [1, 2, 3] : FrozenSet Int).has x = (x = 1 ∨ x = 2 ∨ x = 3)) := by
  have hmem : ∀ (α : Type) [DecidableEq α] (it : List α) (x : α),
      (FrozenSet.new it).has x = memB x it := by
    intro α _ it x
    show memB x (dedupAux [] it) = memB x it
    rw [memB_dedupAux]
    simp [memB]
  refine ⟨hmem, rfl, ?_⟩
  intro x
  rw [hmem]
  by_cases h1 : x = 1 <;> by_cases h2 : x = 2 <;> by_cases h3 : x = 3 <;>
    simp [memB, h1, h2, h3]

/-- C3: every mutating call on a `FrozenSet` fails with the
FrozenMutationError kind, and any sequence of such calls — retries
after caught failures included — leaves the membership identical. -/
theorem frozenSet_mutations_fail_unchanged :
    (∀ (α : Type) [DecidableEq α] (s : FrozenSet α) (op : MutOp α),
      runOp s op = .error frozenMutationError)
    ∧ (∀ (α : Type) [DecidableEq α] (s : FrozenSet α) (ops : List (MutOp α)) (x : α),
      (runCaught s ops).has x = s.has x) := by
  have hrun : ∀ (α : Type) [DecidableEq α] (s : FrozenSet α) (op : MutOp α),
      runOp s op = .error frozenMutationError := by
    intro α _ s op
    cases op <;> rfl
  refine ⟨hrun, ?_⟩
  intro α inst s ops x
  have hfix : ∀ (l : List (MutOp α)) (t : FrozenSet α), runCaught t l = t := by
    intro l
    induction l with
    | nil => intro t; rfl
    | cons op ops ih =>
      intro t
      rw [runCaught, hrun]
      exact ih t
  rw [hfix]

/-- C7: the claim (and the method's own doc comment) promise that
`remove(x)` on a collection that does not override it fails with the
ValueError kind when `x` is absent; the inherited default body is
empty, so the call returns `undefined` normally and never throws —
unlike `size()`, whose default does throw. -/
theorem collection_remove_returns_normally :
    ∀ x : JSVal,
      Collection.remove x = .ok .vUndefined
      ∧ (∀ e : JSErr, Collection.remove x ≠ .error e)
      ∧ Collection.size = .error .notImplementedError := by
  intro x
  exact ⟨rfl, fun e h => Except.noConfusion h, rfl⟩

/-! Flattening: facts used by the depth-1 claims. -/

theorem S_pos : ∀ v : JSVal, 1 ≤ S v := by
  intro v; cases v <;> simp [S]

theorem SL_append : ∀ a b : JSList, SL (a.append b) = SL a + SL b
  | .nil, b => by simp [JSList.append, SL]
  | .cons x xs, b => by
    simp [JSList.append, SL, SL_append xs b]
    omega

/-- The loop never grows the total size. -/
theorem SL_flattenLoop_le :
    ∀ (fuel : Nat) (todo : JSList) (d : Depth),
      SL (flattenLoop fuel todo d) ≤ SL todo := by
  intro fuel
  induction fuel with
  | zero => intro todo d; exact Nat.le_refl _
  | succ f ih =>
    intro todo d
    cases todo with
    | nil => simp [flattenLoop, SL]
    | cons x rest =>
      cases x with
      | arr xs =>
        simp only [flattenLoop]
        have hv : SL (if dTruthy (decDepth d) then flattenLoop f xs (decDepth d) else xs) ≤ SL xs := by
          by_cases hdt : dTruthy (decDepth d) = true
          · rw [if_pos hdt]; exact ih xs (decDepth d)
          · rw [if_neg hdt]
        generalize hgen : (if dTruthy (decDepth d) then flattenLoop f xs (decDepth d) else xs) = v at hv
        cases v with
        | nil =>
          cases rest with
          | nil => simp [SL]
          | cons y rest' =>
            have := ih rest' d
            simp only [SL, S] at *
            omega
        | cons v0 vrest =>
          have hrec := ih (vrest.append rest) d
          rw [SL_append] at hrec
          simp only [SL, S] at *
          omega
      | vNum m =>
        have := ih rest d
        simp only [flattenLoop, SL, S] at *
        omega
      | vStr s =>
        have := ih rest d
        simp only [flattenLoop, SL, S] at *
        omega
      | vBool b =>
        have := ih rest d
        simp only [flattenLoop, SL, S] at *
        omega
      | vNull =>
        have := ih rest d
        simp only [flattenLoop, SL, S] at *
        omega
      | vUndefined =>
        have := ih rest d
        simp only [flattenLoop, SL, S] at *
        omega
      | obj fs =>
        have := ih rest d
        simp only [flattenLoop, SL, S] at *
        omega
      | fn f0 =>
        have := ih rest d
        simp only [flattenLoop, SL, S] at *
        omega

/-- Any fuel beyond the total size computes the same result: the
`SL todo + 1` used by `flattenArray` never truncates. -/
theorem flattenLoop_fuel_eq :
    ∀ (f1 : Nat) (todo : JSList) (d : Depth) (f2 : Nat),
      SL todo < f1 → SL todo < f2 →
      flattenLoop f1 todo d = flattenLoop f2 todo d := by
  intro f1
  induction f1 with
  | zero => intro todo d f2 h1; omega
  | succ f ih =>
    intro todo d f2 h1 h2
    cases todo with
    | nil =>
      cases f2 with
      | zero => omega
      | succ g => rfl
    | cons x rest =>
      cases f2 with
      | zero => omega
      | succ g =>
        cases x with
        | arr xs =>
          simp only [flattenLoop]
          have hxs1 : SL xs < f := by simp only [SL, S] at h1; omega
          have hxs2 : SL xs < g := by simp only [SL, S] at h2; omega
          have hveq : (if dTruthy (decDepth d) then flattenLoop f xs (decDepth d) else xs)
              = (if dTruthy (decDepth d) then flattenLoop g xs (decDepth d) else xs) := by
            by_cases hdt : dTruthy (decDepth d) = true
            · rw [if_pos hdt, if_pos hdt]; exact ih xs (decDepth d) g hxs1 hxs2
            · rw [if_neg hdt, if_neg hdt]
          rw [← hveq]
          have hvle : SL (if dTruthy (decDepth d) then flattenLoop f xs (decDepth d) else xs)
              ≤ SL xs := by
            by_cases hdt : dTruthy (decDepth d) = true
            · rw [if_pos hdt]; exact SL_flattenLoop_le f xs (decDepth d)
            · rw [if_neg hdt]
          generalize hgen : (if dTruthy (decDepth d) then flattenLoop f xs (decDepth d) else xs) = v at hvle ⊢
          cases v with
          | nil =>
            cases rest with
            | nil => rfl
            | cons y rest' =>
              have hr1 : SL rest' < f := by simp only [SL, S] at h1; have := S_pos y; omega
              have hr2 : SL rest' < g := by simp only [SL, S] at h2; have := S_pos y; omega
              simp [ih rest' d g hr1 hr2]
          | cons v0 vrest =>
            have hp0 := S_pos v0
            simp only [SL] at hvle
            have ha1 : SL (vrest.append rest) < f := by
              rw [SL_append]; simp only [SL, S] at h1; omega
            have ha2 : SL (vrest.append rest) < g := by
              rw [SL_append]; simp only [SL, S] at h2; omega
            simp [ih (vrest.append rest) d g ha1 ha2]
        | vNum m =>
          have hr1 : SL rest < f := by simp only [SL, S] at h1; omega
          have hr2 : SL rest < g := by simp only [SL, S] at h2; omega
          simp only [flattenLoop]
          rw [ih rest d g hr1 hr2]
        | vStr s =>
          have hr1 : SL rest < f := by simp only [SL, S] at h1; omega
          have hr2 : SL rest < g := by simp only [SL, S] at h2; omega
          simp only [flattenLoop]
          rw [ih rest d g hr1 hr2]
        | vBool b =>
          have hr1 : SL rest < f := by simp only [SL, S] at h1; omega
          have hr2 : SL rest < g := by simp only [SL, S] at h2; omega
          simp only [flattenLoop]
          rw [ih rest d g hr1 hr2]
        | vNull =>
          have hr1 : SL rest < f := by simp only [SL, S] at h1; omega
          have hr2 : SL rest < g := by simp only [SL, S] at h2; omega
          simp only [flattenLoop]
          rw [ih rest d g hr1 hr2]
        | vUndefined =>
          have hr1 : SL rest < f := by simp only [SL, S] at h1; omega
          have hr2 : SL rest < g := by simp only [SL, S] at h2; omega
          simp only [flattenLoop]
          rw [ih rest d g hr1 hr2]
        | obj fs =>
          have hr1 : SL rest < f := by simp only [SL, S] at h1; omega
          have hr2 : SL rest < g := by simp only [SL, S] at h2; omega
          simp only [flattenLoop]
          rw [ih rest d g hr1 hr2]
        | fn f0 =>
          have hr1 : SL rest < f := by simp only [SL, S] at h1; omega
          have hr2 : SL rest < g := by simp only [SL, S] at h2; omega
          simp only [flattenLoop]
          rw [ih rest d g hr1 hr2]

theorem all_append (p : JSVal → Bool) :
    ∀ a b : JSList, (a.append b).all p = (a.all p && b.all p)
  | .nil, b => by simp [JSList.append, JSList.all]
  | .cons x xs, b => by
    simp [JSList.append, JSList.all, all_append p xs b, Bool.and_assoc]

theorem all_imp {p q : JSVal → Bool} (hpq : ∀ v, p v = true → q v = true) :
    ∀ l : JSList, l.all p = true → l.all q = true
  | .nil, _ => by simp [JSList.all]
  | .cons x xs, h => by
    simp [JSList.all] at h ⊢
    exact ⟨hpq x h.1, all_imp hpq xs h.2⟩

theorem notArray_elemOk1 : ∀ v : JSVal, notArray v = true → elemOk1 v = true := by
  intro v
  cases v <;> simp [notArray, elemOk1]

/-- Enough fuel, depth 1: under the element condition, the loop's
result holds no arrays. -/
theorem flattenLoop_num1_all_notArray :
    ∀ (fuel : Nat) (todo : JSList), SL todo < fuel → todo.all elemOk1 = true →
      (flattenLoop fuel todo (.num 1)).all notArray = true := by
  intro fuel
  induction fuel with
  | zero => intro todo h; omega
  | succ f ih =>
    intro todo hsz hall
    cases todo with
    | nil => simp [flattenLoop, JSList.all]
    | cons x rest =>
      cases x with
      | arr xs =>
        simp [JSList.all] at hall
        cases xs with
        | nil => simp [elemOk1] at hall
        | cons v0 vrest =>
          have h1 := hall.1
          rw [elemOk1] at h1
          simp only [Bool.and_eq_true] at h1
          obtain ⟨hv0, hvrest⟩ := h1
          have hsz' : SL (vrest.append rest) < f := by
            simp only [SL, S] at hsz
            have hp := S_pos v0
            rw [SL_append]
            omega
          have hall' : (vrest.append rest).all elemOk1 = true := by
            rw [all_append]
            simp [all_imp notArray_elemOk1 vrest hvrest, hall.2]
          simp only [flattenLoop, decDepth, dTruthy]
          simp [JSList.all, hv0, ih (vrest.append rest) hsz' hall']
      | vNum m =>
        simp [JSList.all, elemOk1] at hall
        have hsz' : SL rest < f := by simp only [SL, S] at hsz; omega
        simp [flattenLoop, JSList.all, notArray, ih rest hsz' hall]
      | vStr s =>
        simp [JSList.all, elemOk1] at hall
        have hsz' : SL rest < f := by simp only [SL, S] at hsz; omega
        simp [flattenLoop, JSList.all, notArray, ih rest hsz' hall]
      | vBool b =>
        simp [JSList.all, elemOk1] at hall
        have hsz' : SL rest < f := by simp only [SL, S] at hsz; omega
        simp [flattenLoop, JSList.all, notArray, ih rest hsz' hall]
      | vNull =>
        simp [JSList.all, elemOk1] at hall
        have hsz' : SL rest < f := by simp only [SL, S] at hsz; omega
        simp [flattenLoop, JSList.all, notArray, ih rest hsz' hall]
      | vUndefined =>
        simp [JSList.all, elemOk1] at hall
        have hsz' : SL rest < f := by simp only [SL, S] at hsz; omega
        simp [flattenLoop, JSList.all, notArray, ih rest hsz' hall]
      | obj fs =>
        simp [JSList.all, elemOk1] at hall
        have hsz' : SL rest < f := by simp only [SL, S] at hsz; omega
        simp [flattenLoop, JSList.all, notArray, ih rest hsz' hall]
      | fn f0 =>
        simp [JSList.all, elemOk1] at hall
        have hsz' : SL rest < f := by simp only [SL, S] at hsz; omega
        simp [flattenLoop, JSList.all, notArray, ih rest hsz' hall]

/-- C4 counterexample: the claim's scan semantics — each spliced-in
nested array flattened exactly within the remaining budget `d - 1`,
never at the original budget and never skipped — is `specFlat`; the
code disagrees with it at depth 1 on `[[0, [1]]]` (the spliced-in
`[1]` is flattened again by the same scan) and on `[[], [1]]` (the
element shifted into the loop position after an empty splice is
skipped). -/
theorem flattenArray_budget_counterexample :
    flattenArray exOverSplice (.num 1) = .cons (.vNum 0) (.cons (.vNum 1) .nil)
    ∧ specFlat 1 exOverSplice = .cons (.vNum 0) (.cons (.arr (.cons (.vNum 1) .nil)) .nil)
    ∧ flattenArray exOverSplice (.num 1) ≠ specFlat 1 exOverSplice
    ∧ flattenArray exEmptySkip (.num 1) = .cons (.arr (.cons (.vNum 1) .nil)) .nil
    ∧ specFlat 1 exEmptySkip = .cons (.vNum 1) .nil
    ∧ flattenArray exEmptySkip (.num 1) ≠ specFlat 1 exEmptySkip :=
  ⟨rfl, rfl, by decide, rfl, rfl, by decide⟩

/-- C4 amended: the scan resumes at the position after the splice, so
the first spliced-in element is never re-examined (a nested array
arriving first in the spliced content stays, as in `[[[5]]] ↦ [[5]]`;
after an empty splice the element shifted into the loop position is
skipped, as in `[[], [1]] ↦ [[1]]`), while later spliced-in elements
are re-examined by the same scan at the original budget and flattened
beyond the remaining budget `d - 1`, as in `[[0, [1]]] ↦ [0, 1]`. -/
theorem flattenArray_resumes_after_splice :
    flattenArray exDeepNest (.num 1) = .cons (.arr (.cons (.vNum 5) .nil)) .nil
    ∧ flattenArray exEmptySkip (.num 1) = .cons (.arr (.cons (.vNum 1) .nil)) .nil
    ∧ flattenArray exOverSplice (.num 1) = .cons (.vNum 0) (.cons (.vNum 1) .nil) :=
  ⟨rfl, rfl, rfl⟩

/-- C5 counterexample: `flatten([[[5]]].slice(), 1)` evaluates to
`[[5]]`, whose top level does contain an array element. -/
theorem flatten_depth1_array_survives :
    flatten (.arr exDeepNest) (.num 1) = .arr (.cons (.arr (.cons (.vNum 5) .nil)) .nil)
    ∧ (flattenArray exDeepNest (.num 1)).all notArray = false :=
  ⟨rfl, rfl⟩

/-- C5 amended: for an array each of whose elements is a non-array or
a nonempty array holding only non-arrays, `flatten(A, 1)` contains no
element that is itself an array. -/
theorem flatten_depth1_no_nested_arrays (A : JSList) (h : A.all elemOk1 = true) :
    flatten (.arr A) (.num 1) = .arr (flattenArray A (.num 1))
    ∧ (flattenArray A (.num 1)).all notArray = true := by
  refine ⟨rfl, ?_⟩
  have : SL A < SL A + 1 := Nat.lt_succ_self _
  simpa [flattenArray, dTruthy] using
    flattenLoop_num1_all_notArray (SL A + 1) A this h

/-- Witness for the amended C5 theorem at `[[1, 2], 3]`. -/
theorem flatten_depth1_no_nested_arrays_witness :
    ((JSList.cons (.arr (.cons (.vNum 1) (.cons (.vNum 2) .nil))) (.cons (.vNum 3) .nil)).all elemOk1 = true)
    ∧ (flattenArray (.cons (.arr (.cons (.vNum 1) (.cons (.vNum 2) .nil))) (.cons (.vNum 3) .nil)) (.num 1)).all notArray = true :=
  ⟨rfl, (flatten_depth1_no_nested_arrays
    (.cons (.arr (.cons (.vNum 1) (.cons (.vNum 2) .nil))) (.cons (.vNum 3) .nil)) rfl).2⟩

/-! Leaf shape of `flattenObj` results. -/

theorem allVals_congr {p q : JSVal → Bool} (hpq : ∀ v, p v = q v) :
    ∀ fs : JSFields, fs.allVals p = fs.allVals q
  | .nil => by simp [JSFields.allVals]
  | .cons k v fs => by
    simp [JSFields.allVals, hpq v, allVals_congr hpq fs]

mutual
theorem flattenObj_goodVals :
    ∀ (o : JSVal) (pre : String) (res : JSFields) (kn : Bool),
      res.allVals (goodLeaf kn) = true →
      (flattenObj o pre res kn).allVals (goodLeaf kn) = true
  | .vStr s, pre, res, kn, h => by
    rw [flattenObj]
    exact allVals_setKey _ res pre (.vStr s) h (by simp [goodLeaf, isScalarB])
  | .vNum n, pre, res, kn, h => by
    rw [flattenObj]
    exact allVals_setKey _ res pre (.vNum n) h (by simp [goodLeaf, isScalarB])
  | .vBool b, pre, res, kn, h => by
    rw [flattenObj]
    exact allVals_setKey _ res pre (.vBool b) h (by simp [goodLeaf, isScalarB])
  | .vNull, pre, res, kn, h => by
    rw [flattenObj]
    by_cases hkn : kn = true
    · rw [if_pos hkn]
      exact allVals_setKey _ res pre .vNull h (by simp [goodLeaf, isNullish, hkn])
    · rw [if_neg hkn]; exact h
  | .vUndefined, pre, res, kn, h => by
    rw [flattenObj]
    by_cases hkn : kn = true
    · rw [if_pos hkn]
      exact allVals_setKey _ res pre .vUndefined h (by simp [goodLeaf, isNullish, hkn])
    · rw [if_neg hkn]; exact h
  | .arr xs, pre, res, kn, h => by
    rw [flattenObj]
    exact flattenObjArr_goodVals xs 0 pre res kn h
  | .obj fs, pre, res, kn, h => by
    rw [flattenObj]
    exact flattenObjFields_goodVals fs pre res kn h
  | .fn f0, _, res, kn, h => by
    rw [flattenObj]
    exact h
theorem flattenObjArr_goodVals :
    ∀ (xs : JSList) (i : Nat) (pre : String) (res : JSFields) (kn : Bool),
      res.allVals (goodLeaf kn) = true →
      (flattenObjArr xs i pre res kn).allVals (goodLeaf kn) = true
  | .nil, _, _, res, kn, h => by rw [flattenObjArr]; exact h
  | .cons x xs, i, pre, res, kn, h => by
    rw [flattenObjArr]
    exact flattenObjArr_goodVals xs (i + 1) pre _ kn
      (flattenObj_goodVals x _ res kn h)
theorem flattenObjFields_goodVals :
    ∀ (fs : JSFields) (pre : String) (res : JSFields) (kn : Bool),
      res.allVals (goodLeaf kn) = true →
      (flattenObjFields fs pre res kn).allVals (goodLeaf kn) = true
  | .nil, _, res, kn, h => by rw [flattenObjFields]; exact h
  | .cons k v fs, pre, res, kn, h => by
    rw [flattenObjFields]
    exact flattenObjFields_goodVals fs pre _ kn
      (flattenObj_goodVals v _ res kn h)
end

/-- C6: every value stored by `flattenObj(O, '', {}, keepNull)` is a
scalar primitive (string, number or boolean) or — exactly when
`keepNull` is set — nullish; with `keepNull` unset every value is a
scalar, so no value is ever an array or an object. -/
theorem flattenObj_values_primitive :
    ∀ (o : JSVal) (kn : Bool),
      (flattenObj o "" .nil kn).allVals (goodLeaf kn) = true
      ∧ (flattenObj o "" .nil false).allVals isScalarB = true := by
  intro o kn
  constructor
  · exact flattenObj_goodVals o "" .nil kn (by simp [JSFields.allVals])
  · have h := flattenObj_goodVals o "" .nil false (by simp [JSFields.allVals])
    have hc : ∀ v, goodLeaf false v = isScalarB v := by
      intro v; simp [goodLeaf]
    rw [allVals_congr hc] at h
    exact h

/-- C10: for a keyed mapping and any truthy depth, `flatten` hands the
mapping to `flattenObj` with all-default remaining arguments; the
depth is ignored, so any truthy numeric depth and boolean `true` give
the same result. -/
theorem flatten_mapping_ignores_depth :
    ∀ (fs : JSFields) (d : Depth), dTruthy d = true →
      flatten (.obj fs) d = .obj (flattenObj (.obj fs) "" .nil false)
      ∧ flatten (.obj fs) d = flatten (.obj fs) (.bool true) := by
  intro fs d hd
  constructor <;> simp only [flatten, hd] <;> simp [dTruthy]

/-- Witness for C10 at `{a: {b: 1}}` with depths `1` and `true`. -/
theorem flatten_mapping_ignores_depth_witness :
    dTruthy (.num 1) = true
    ∧ flatten (.obj (.cons "a" (.obj (.cons "b" (.vNum 1) .nil)) .nil)) (.num 1)
      = flatten (.obj (.cons "a" (.obj (.cons "b" (.vNum 1) .nil)) .nil)) (.bool true) :=
  ⟨rfl, (flatten_mapping_ignores_depth (.cons "a" (.obj (.cons "b" (.vNum 1) .nil)) .nil)
    (.num 1) rfl).2⟩

/-- C8: a nullish `obj` makes `pick` return the empty mapping without
failing; over an object and an explicit key list, the returned keys
are exactly the listed keys (a key absent on `obj` is still present,
holding `undefined`), and every listed key reads back exactly
`obj[k]`. -/
theorem pick_exact_keys :
    (∀ ks : List String, pick .vNull (.byKeys ks) = .obj .nil)
    ∧ (∀ ks : List String, pick .vUndefined (.byKeys ks) = .obj .nil)
    ∧ (∀ (fs : JSFields) (ks : List String) (k : String),
        memB k (enumKeys (pick (.obj fs) (.byKeys ks))) = memB k ks
        ∧ (memB k ks = true →
            getProp (pick (.obj fs) (.byKeys ks)) k = getProp (.obj fs) k)) := by
  refine ⟨fun ks => rfl, fun ks => rfl, ?_⟩
  intro fs ks k
  have hpick : pick (.obj fs) (.byKeys ks)
      = .obj (storeAll .nil (ks.map (fun k0 => (k0, getProp (.obj fs) k0)))) := rfl
  have hfst : (ks.map (fun k0 => (k0, getProp (.obj fs) k0))).map Prod.fst = ks := by
    rw [List.map_map]
    exact List.map_id' ks
  constructor
  · rw [hpick]
    show memB k (storeAll .nil (ks.map (fun k0 => (k0, getProp (.obj fs) k0)))).keysF = memB k ks
    rw [keysF_storeAll, hfst]
    show memB k (dedupAux ([] : List String) ks) = memB k ks
    rw [memB_dedupAux]
    simp [memB]
  · intro hk
    rw [hpick]
    show ((storeAll .nil (ks.map (fun k0 => (k0, getProp (.obj fs) k0)))).lookupF k).getD .vUndefined
      = getProp (.obj fs) k
    rw [lookupF_storeAll, lastPair_map (fun k0 => getProp (.obj fs) k0) ks k, if_pos hk]
    simp

/-- Witness for C8 at `pick({a:1, b:2, c:3}, ['a','c'])` and key `a`. -/
theorem pick_exact_keys_witness :
    memB "a" ["a", "c"] = true
    ∧ getProp (pick (.obj (.cons "a" (.vNum 1) (.cons "b" (.vNum 2) (.cons "c" (.vNum 3) .nil))))
        (.byKeys ["a", "c"])) "a"
      = getProp (.obj (.cons "a" (.vNum 1) (.cons "b" (.vNum 2) (.cons "c" (.vNum 3) .nil)))) "a" :=
  ⟨rfl,
    (pick_exact_keys.2.2 (.cons "a" (.vNum 1) (.cons "b" (.vNum 2) (.cons "c" (.vNum 3) .nil)))
      ["a", "c"] "a").2 rfl⟩

/-! Uniqueness of stored keys, and extensionality of field lists. -/

theorem nodupB_append_singleton (k : String) :
    ∀ l : List String, nodupB l = true → memB k l = false →
      nodupB (l ++ [k]) = true := by
  intro l
  induction l with
  | nil => intro _ _; simp [nodupB, memB]
  | cons a as ih =>
    intro hnd hm
    simp [nodupB] at hnd
    simp [memB] at hm
    have hka : ¬ k = a := fun e => by simp [e] at hm
    have hak : ¬ a = k := fun e => hka e.symm
    simp [nodupB, memB_append, hnd.1, ih hnd.2 (by simpa [memB] using hm.2), memB, hak]

theorem nodupB_setKey :
    ∀ (fs : JSFields) (k : String) (v : JSVal),
      nodupB fs.keysF = true → nodupB (setKey fs k v).keysF = true := by
  intro fs k v h
  rw [keysF_setKey]
  by_cases hm : memB k fs.keysF
  · simp [hm, h]
  · simp only [hm, if_neg, Bool.false_eq_true, not_false_iff]
    exact nodupB_append_singleton k fs.keysF h (by simpa using hm)

theorem nodupB_storeAll :
    ∀ (ps : List (String × JSVal)) (acc : JSFields),
      nodupB acc.keysF = true → nodupB (storeAll acc ps).keysF = true := by
  intro ps
  induction ps with
  | nil => intro acc h; exact h
  | cons p ps ih =>
    intro acc h
    obtain ⟨k0, v0⟩ := p
    rw [storeAll]
    exact ih (setKey acc k0 v0) (nodupB_setKey acc k0 v0 h)

theorem nodupB_dedupAux :
    ∀ (l seen : List String), nodupB (dedupAux seen l) = true := by
  intro l
  induction l with
  | nil => intro seen; simp [dedupAux, nodupB]
  | cons a as ih =>
    intro seen
    by_cases hm : memB a seen
    · simp [dedupAux, hm, ih seen]
    · have hmem : memB a (dedupAux (a :: seen) as) = false := by
        rw [memB_dedupAux]
        simp [memB]
      simp [dedupAux, hm, nodupB, hmem, ih (a :: seen)]

theorem lookupF_eq_none :
    ∀ (fs : JSFields) (k : String), memB k fs.keysF = false → fs.lookupF k = none
  | .nil, k, _ => rfl
  | .cons k0 v0 fs, k, h => by
    simp [JSFields.keysF, memB] at h
    have hk : ¬ k = k0 := fun e => by simp [e] at h
    have hk' : ¬ k0 = k := fun e => hk e.symm
    rw [JSFields.lookupF, if_neg hk']
    exact lookupF_eq_none fs k (by
      rcases h with ⟨_, h2⟩
      simpa [memB] using h2)

theorem lookupF_head :
    ∀ (k : String) (v : JSVal) (fs : JSFields), (JSFields.cons k v fs).lookupF k = some v := by
  intro k v fs
  rw [JSFields.lookupF, if_pos rfl]

/-- Two field lists with the same (duplicate-free) key sequence and
the same lookups are equal. -/
theorem fields_ext :
    ∀ (f1 f2 : JSFields), f1.keysF = f2.keysF → nodupB f1.keysF = true →
      (∀ k, f1.lookupF k = f2.lookupF k) → f1 = f2
  | .nil, f2, hk, _, _ => by
    cases f2 with
    | nil => rfl
    | cons k v fs => simp [JSFields.keysF] at hk
  | .cons k v r1, f2, hk, hnd, hl => by
    cases f2 with
    | nil => simp [JSFields.keysF] at hk
    | cons k' v' r2 =>
      simp only [JSFields.keysF, List.cons.injEq] at hk
      obtain ⟨hkk, hks⟩ := hk
      subst hkk
      have hv : some v = some v' := by
        have := hl k
        rwa [lookupF_head, lookupF_head] at this
      simp only [Option.some.injEq] at hv
      subst hv
      simp only [JSFields.keysF, nodupB, Bool.and_eq_true, Bool.not_eq_true'] at hnd
      have htail : ∀ k0, r1.lookupF k0 = r2.lookupF k0 := by
        intro k0
        by_cases hk0 : k0 = k
        · subst hk0
          rw [lookupF_eq_none r1 k0 hnd.1, lookupF_eq_none r2 k0 (by rw [← hks]; exact hnd.1)]
        · have := hl k0
          have hkk0 : ¬ k = k0 := fun e => hk0 e.symm
          rwa [JSFields.lookupF, JSFields.lookupF, if_neg hkk0, if_neg hkk0] at this
      rw [fields_ext r1 r2 hks hnd.2 htail]

/-- `lastPair` over the pairs built by `uniq`'s loop is `lastDerived`. -/
theorem lastPair_uniq (fn : UniqSel) :
    ∀ (l : JSList) (k : String),
      lastPair (l.toList.map (fun x => (toPropKey x, derive fn x))) k
        = lastDerived fn l k
  | .nil, k => rfl
  | .cons x xs, k => by
    rw [JSList.toList, List.map_cons, lastPair, lastDerived, lastPair_uniq fn xs k]

/-- `lastDerived` finds a value exactly for the element coercions. -/
theorem lastDerived_isSome (fn : UniqSel) :
    ∀ (l : JSList) (k : String),
      (lastDerived fn l k).isSome = memB k (propKeys l)
  | .nil, k => rfl
  | .cons x xs, k => by
    rw [lastDerived]
    have ih := lastDerived_isSome fn xs k
    have hpk : propKeys (.cons x xs) = toPropKey x :: propKeys xs := rfl
    rw [hpk]
    cases hld : lastDerived fn xs k with
    | some v =>
      rw [hld] at ih
      have hmem : memB k (propKeys xs) = true := by rw [← ih]; rfl
      by_cases hk : k = toPropKey x <;> simp [memB, hk, hmem]
    | none =>
      rw [hld] at ih
      by_cases hk : toPropKey x = k
      · rw [if_pos hk]
        simp only [memB]
        rw [if_pos (show k = toPropKey x from hk.symm)]
        rfl
      · rw [if_neg hk]
        simp only [memB]
        rw [if_neg (show ¬ k = toPropKey x from fun e => hk e.symm)]
        exact ih

theorem keysF_buildFields (f : String → JSVal) :
    ∀ ks : List String, (buildFields ks f).keysF = ks := by
  intro ks
  induction ks with
  | nil => rfl
  | cons k0 ks ih => simp [buildFields, JSFields.keysF, ih]

theorem lookupF_buildFields (f : String → JSVal) :
    ∀ (ks : List String) (k : String),
      (buildFields ks f).lookupF k = if memB k ks then some (f k) else none := by
  intro ks
  induction ks with
  | nil => intro k; simp [buildFields, JSFields.lookupF, memB]
  | cons k0 ks ih =>
    intro k
    by_cases hk : k0 = k
    · subst hk
      simp [buildFields, JSFields.lookupF, memB]
    · have hk' : ¬ k = k0 := fun e => hk e.symm
      simp [buildFields, JSFields.lookupF, memB, hk, hk', ih k]

/-- C9: `uniq` equals the values of the last-write-wins mapping keyed
by the elements' string coercions and holding the derived keys (stated
extensionally by `uniqSpec`: distinct coercions in first-occurrence
order, each holding the last matching element's derived key); on
`[1,1,2,3,3]` with the identity it returns `[1,2,3]`, and `sortedUniq`
returns `[1,2,3]`, ascending under the comparison oracle. -/
theorem uniq_lastWriteWins :
    (∀ (l : JSList) (fn : UniqSel), uniq l fn = uniqSpec l fn)
    ∧ uniq uniqEx (.func opId) = .cons (.vNum 1) (.cons (.vNum 2) (.cons (.vNum 3) .nil))
    ∧ sortedUniq uniqEx (.func opId) = .cons (.vNum 1) (.cons (.vNum 2) (.cons (.vNum 3) .nil))
    ∧ chainSortedComp (sortedUniq uniqEx (.func opId)) = true := by
  refine ⟨?_, rfl, rfl, rfl⟩
  intro l fn
  rw [uniq, uniqSpec]
  apply congrArg jsValues
  have hfst : (l.toList.map (fun x => (toPropKey x, derive fn x))).map Prod.fst
      = propKeys l := by
    rw [List.map_map]
    rfl
  apply fields_ext
  · rw [keysF_storeAll, hfst, keysF_buildFields]
    rfl
  · exact nodupB_storeAll _ .nil rfl
  · intro k
    rw [lookupF_storeAll, lastPair_uniq fn l k,
      lookupF_buildFields _ (dedupAux [] (propKeys l)) k]
    have hdk : memB k (dedupAux ([] : List String) (propKeys l)) = memB k (propKeys l) := by
      rw [memB_dedupAux]
      simp [memB]
    rw [hdk]
    cases hld : lastDerived fn l k with
    | some v =>
      have : memB k (propKeys l) = true := by
        rw [← lastDerived_isSome fn l k, hld]; rfl
      rw [this, if_pos rfl]
      rfl
    | none =>
      have : memB k (propKeys l) = false := by
        rw [← lastDerived_isSome fn l k, hld]; rfl
      rw [this]
      rfl

end EsNext
